import Mathlib

/-!
# Verification of the contractive REN layer (`contractive_REN.py`)

Shallow embedding of the `ContractiveREN` module over the reals.

* Machine floats are modelled as real numbers.
* A tensor of shape `(batch, 1, d)` is modelled per batch entry as a vector
  `Fin d → ℝ`; the batch dimension is data-parallel and carries no
  interaction between entries, so all statements are per batch entry.
* `torch.split` of the square matrix `H` (side `2n+l`) into the block sizes
  `(n, l, n)` is modelled by indexing `H` with the partitioned index type
  `Fin n ⊕ (Fin l ⊕ Fin n)`; the nine blocks are then literal restrictions
  of `H` to the corresponding summands, exactly as `torch.split` restricts
  to the corresponding index ranges.
* The mutable instance state `self.x` is modelled by explicit state passing:
  `forward` consumes a model value and returns the updated model value
  together with the produced output.
-/

open Matrix

/- Real-number arithmetic in Lean carries no executable code, so the
embedding lives in a noncomputable section; concrete evaluations are done
by `simp`/`norm_num` in the proofs below. -/
noncomputable section

namespace ContractiveREN

/-- Index type of the auxiliary matrices `X` and `H` (side `2·n + l`),
partitioned into the `(n, l, n)` block ranges used by `torch.split`. -/
abbrev Idx (n l : ℕ) := Fin n ⊕ (Fin l ⊕ Fin n)

/-- First block range (size `n`) of the partitioned index. -/
abbrev b1 {n l : ℕ} (i : Fin n) : Idx n l := Sum.inl i

/-- Second block range (size `l`) of the partitioned index. -/
abbrev b2 {n l : ℕ} (i : Fin l) : Idx n l := Sum.inr (Sum.inl i)

/-- Third block range (size `n`) of the partitioned index. -/
abbrev b3 {n l : ℕ} (i : Fin n) : Idx n l := Sum.inr (Sum.inr i)

/-- The trainable (free) parameters of `ContractiveREN` together with the
construction-time configuration scalars `pos_def_tol` (called `epsilon` in
the code) and `contraction_rate_lb`.  Dimensions: `n` = `dim_internal`,
`l` = `dim_nl`, `m` = `dim_in`, `p` = `dim_out`. -/
structure Params (n l m p : ℕ) where
  X : Matrix (Idx n l) (Idx n l) ℝ
  Y : Matrix (Fin n) (Fin n) ℝ
  B2 : Matrix (Fin n) (Fin m) ℝ
  C2 : Matrix (Fin p) (Fin n) ℝ
  D21 : Matrix (Fin p) (Fin l) ℝ
  D22 : Matrix (Fin p) (Fin m) ℝ
  D12 : Matrix (Fin l) (Fin m) ℝ
  epsilon : ℝ
  contraction_rate_lb : ℝ

variable {n l m p : ℕ}

/-- `H = torch.matmul(X.T, X) + epsilon * eye`, line 98. -/
def H (θ : Params n l m p) : Matrix (Idx n l) (Idx n l) ℝ :=
  θ.X.transpose * θ.X + θ.epsilon • (1 : Matrix (Idx n l) (Idx n l) ℝ)

/-- Block `H11` of the `(n, l, n)` partition of `H` (lines 99-102). -/
def H11 (θ : Params n l m p) : Matrix (Fin n) (Fin n) ℝ :=
  fun i j => H θ (b1 i) (b1 j)

/-- Block `H21` of the `(n, l, n)` partition of `H`. -/
def H21 (θ : Params n l m p) : Matrix (Fin l) (Fin n) ℝ :=
  fun i j => H θ (b2 i) (b1 j)

/-- Block `H22` of the `(n, l, n)` partition of `H`. -/
def H22 (θ : Params n l m p) : Matrix (Fin l) (Fin l) ℝ :=
  fun i j => H θ (b2 i) (b2 j)

/-- Block `H31` of the `(n, l, n)` partition of `H`. -/
def H31 (θ : Params n l m p) : Matrix (Fin n) (Fin n) ℝ :=
  fun i j => H θ (b3 i) (b1 j)

/-- Block `H32` of the `(n, l, n)` partition of `H`. -/
def H32 (θ : Params n l m p) : Matrix (Fin n) (Fin l) ℝ :=
  fun i j => H θ (b3 i) (b2 j)

/-- Block `H33` of the `(n, l, n)` partition of `H`. -/
def H33 (θ : Params n l m p) : Matrix (Fin n) (Fin n) ℝ :=
  fun i j => H θ (b3 i) (b3 j)

/-- Block `H12` of the `(n, l, n)` partition of `H` (line 100). -/
def H12 (θ : Params n l m p) : Matrix (Fin n) (Fin l) ℝ :=
  fun i j => H θ (b1 i) (b2 j)

/-- Block `H13` of the `(n, l, n)` partition of `H` (line 100). -/
def H13 (θ : Params n l m p) : Matrix (Fin n) (Fin n) ℝ :=
  fun i j => H θ (b1 i) (b3 j)

/-- Block `H23` of the `(n, l, n)` partition of `H` (discarded as `_` on
line 101 of the code; used here only in quadratic-form computations). -/
def H23 (θ : Params n l m p) : Matrix (Fin l) (Fin n) ℝ :=
  fun i j => H θ (b2 i) (b3 j)

/-- Assemble a vector over the partitioned index from its three block
components. -/
def blk {n l : ℕ} (a : Fin n → ℝ) (b : Fin l → ℝ) (c : Fin n → ℝ) :
    Idx n l → ℝ :=
  Sum.elim a (Sum.elim b c)

/-- `torch.tril(A, diagonal=d)`: keep the entries on and below the `d`-th
diagonal, zero elsewhere. -/
def tril (A : Matrix (Fin l) (Fin l) ℝ) (d : ℤ) : Matrix (Fin l) (Fin l) ℝ :=
  fun i j => if (j : ℤ) ≤ (i : ℤ) + d then A i j else 0

/-- `P = H33`, line 103. -/
def P (θ : Params n l m p) : Matrix (Fin n) (Fin n) ℝ := H33 θ

/-- `F = H31`, line 106. -/
def F (θ : Params n l m p) : Matrix (Fin n) (Fin n) ℝ := H31 θ

/-- `B1 = H32`, line 107. -/
def B1 (θ : Params n l m p) : Matrix (Fin n) (Fin l) ℝ := H32 θ

/-- `E = 0.5 * (H11 + contraction_rate_lb * P + Y - Y.T)`, line 110. -/
def E (θ : Params n l m p) : Matrix (Fin n) (Fin n) ℝ :=
  (0.5 : ℝ) • (H11 θ + θ.contraction_rate_lb • P θ + θ.Y - θ.Y.transpose)

/-- `E_inv = E.inverse()`, line 111, as the matrix inverse.  This embedding
is faithful exactly where `E` is invertible — every statement below that
touches `E_inv` carries (or proves) invertibility of `E`; the library's
failure behaviour on an exactly singular `E` is not modelled. -/
def E_inv (θ : Params n l m p) : Matrix (Fin n) (Fin n) ℝ := (E θ)⁻¹

/-- `Lambda = 0.5 * torch.diag(H22)` (the diagonal of `H22` as a vector),
line 114. -/
def Lambda (θ : Params n l m p) : Fin l → ℝ :=
  fun i => (0.5 : ℝ) * (H22 θ).diag i

/-- `D11 = -torch.tril(H22, diagonal=-1)`, line 115. -/
def D11 (θ : Params n l m p) : Matrix (Fin l) (Fin l) ℝ :=
  -(tril (H22 θ) (-1))

/-- `C1 = -H21`, line 116. -/
def C1 (θ : Params n l m p) : Matrix (Fin l) (Fin n) ℝ := -(H21 θ)

/-- Strict lower-triangular part of a matrix, as the specification words it:
the entries strictly below the main diagonal, zero elsewhere. -/
def strictLowerTriangular (A : Matrix (Fin l) (Fin l) ℝ) :
    Matrix (Fin l) (Fin l) ℝ :=
  fun i j => if (j : ℕ) < (i : ℕ) then A i j else 0

/-- A `ContractiveREN` instance: the trainable parameters, the buffers
`x_init` and `y_init` registered at construction (lines 90-91), and the
mutable internal state `self.x`. -/
structure Model (n l m p : ℕ) where
  params : Params n l m p
  x_init : Fin n → ℝ
  y_init : Fin p → ℝ
  x : Fin n → ℝ

/-- Constructor, lines 80-91, after the initial internal state `x0` has been
determined (zero when nothing is given, or the reshaped
`internal_state_init`): registers `x_init` as a copy of that state and
`y_init = F.linear(x_init, C2) = C2 · x_init`.  No validation of `epsilon`,
`contraction_rate_lb` or the shape of `x0` is performed anywhere in
`__init__`. -/
def init (θ : Params n l m p) (x0 : Fin n → ℝ) : Model n l m p :=
  { params := θ, x_init := x0, y_init := θ.C2 *ᵥ x0, x := x0 }

/-- The sequential solve for `w`, lines 133-139: starting from `w = 0`, the
loop body at counter `i < l` adds `eye_mask_w[i, :] * tanh(v_i / Lambda_i)`
where `v_i = C1[i]·x + D11[i,:]·w + D12[i]·u` uses the current `w`.
`wLoop θ x u k` is the value of `w` after the first `k` loop iterations. -/
def wLoop (θ : Params n l m p) (x : Fin n → ℝ) (u : Fin m → ℝ) :
    ℕ → (Fin l → ℝ)
  | 0 => 0
  | k + 1 =>
    let w := wLoop θ x u k
    if h : k < l then
      w + Pi.single (⟨k, h⟩ : Fin l)
        (Real.tanh (((C1 θ *ᵥ x) ⟨k, h⟩ + (D11 θ *ᵥ w) ⟨k, h⟩
          + (θ.D12 *ᵥ u) ⟨k, h⟩) / Lambda θ ⟨k, h⟩))
    else w

/-- The equilibrium variable `w` produced by the full loop over
`range(self.dim_nl)`. -/
def wSolve (θ : Params n l m p) (x : Fin n → ℝ) (u : Fin m → ℝ) :
    Fin l → ℝ :=
  wLoop θ x u l

/-- `forward`, lines 118-146: refresh the derived matrices, solve for `w`,
update the state `x ← E⁻¹(F·x + B1·w + B2·u)` and return the output
`y = C2·x + D21·w + D22·u` computed from the freshly committed state. -/
def forward (M : Model n l m p) (u : Fin m → ℝ) :
    Model n l m p × (Fin p → ℝ) :=
  let θ := M.params
  let w := wSolve θ M.x u
  let xNext := E_inv θ *ᵥ (F θ *ᵥ M.x + B1 θ *ᵥ w + θ.B2 *ᵥ u)
  ({ M with x := xNext },
    θ.C2 *ᵥ xNext + θ.D21 *ᵥ w + θ.D22 *ᵥ u)

/-- `reset`, lines 148-149: set the internal state back to `x_init`. -/
def reset (M : Model n l m p) : Model n l m p :=
  { M with x := M.x_init }

/-- The loop of `run`, lines 165-166: `k` successive `forward` invocations
on inputs `u 0, …, u (k-1)`, logging the outputs in order. -/
def runSteps (M : Model n l m p) (u : ℕ → Fin m → ℝ) :
    ℕ → Model n l m p × List (Fin p → ℝ)
  | 0 => (M, [])
  | t + 1 =>
    let r := runSteps M u t
    let s := forward r.1 (u t)
    (s.1, r.2 ++ [s.2])

/-- `run`, lines 152-168, on an input sequence of length `T`: reset the
state, seed the output log with the buffered `y_init`, then append the
outputs of `forward` on the inputs at times `0 … T-2` (`range(T - 1)`;
the last input element is never read). -/
def run (M : Model n l m p) (u : ℕ → Fin m → ℝ) (T : ℕ) :
    Model n l m p × List (Fin p → ℝ) :=
  let r := runSteps (reset M) u (T - 1)
  (r.1, M.y_init :: r.2)

/-- `__call__`, lines 191-192: delegates to `run`. -/
def call (M : Model n l m p) (u : ℕ → Fin m → ℝ) (T : ℕ) :
    Model n l m p × List (Fin p → ℝ) :=
  run M u T

/-- An all-zero free-parameter set in the smallest nontrivial dimensions,
with the default `contraction_rate_lb` and a unit tolerance; used to
instantiate the universally quantified theorems below at a concrete input. -/
def zeroParams : Params 1 1 1 1 :=
  { X := 0, Y := 0, B2 := 0, C2 := 0, D21 := 0, D22 := 0, D12 := 0,
    epsilon := 1, contraction_rate_lb := 1 }

/-- A concrete model instance built from `zeroParams` with zero initial
state. -/
def M0 : Model 1 1 1 1 := init zeroParams 0

/-- A configuration with non-positive `pos_def_tol` and
`contraction_rate_lb`: the constructor accepts it unchecked. -/
def invalidParams : Params 1 1 1 1 :=
  { X := 0, Y := 0, B2 := 0, C2 := 0, D21 := 0, D22 := 0, D12 := 0,
    epsilon := -1, contraction_rate_lb := -1 }

/-- Indicator of the first internal-state coordinate inside the partitioned
index `Idx 2 0`. -/
def pick1 : Idx 2 0 → ℝ :=
  Sum.elim ![1, 0] (Sum.elim (fun e => Fin.elim0 e) ![0, 0])

/-- A configuration the constructor accepts with an extremely small
`pos_def_tol = 10⁻¹²` and a rank-one `X = pick1·pick1ᵀ` (`n = 2`, `l = 0`):
the derived `E` is diagonal with entries `0.5 + 10⁻¹²` and `10⁻¹²`, hence
invertible but with spectral condition number above `10¹¹`. -/
def illParams : Params 2 0 1 1 :=
  { X := fun i j => pick1 i * pick1 j,
    Y := 0, B2 := 0, C2 := 0, D21 := 0, D22 := 0, D12 := 0,
    epsilon := 1e-12, contraction_rate_lb := 1 }

/-- A concrete model from `zeroParams` with initial state `1` (paired with
`M0` to instantiate the two-trajectory statements). -/
def M1 : Model 1 1 1 1 := init zeroParams (fun _ => 1)

/-- The state-update map of one `forward` step: the value committed to
`self.x` on line 142. -/
def nextState (θ : Params n l m p) (x : Fin n → ℝ) (u : Fin m → ℝ) :
    Fin n → ℝ :=
  E_inv θ *ᵥ (F θ *ᵥ x + B1 θ *ᵥ wSolve θ x u + θ.B2 *ᵥ u)

/-- Sum of the absolute values of the entries of `H11`, an explicit upper
bound for its quadratic form. -/
def H11abs (θ : Params n l m p) : ℝ :=
  ∑ i, ∑ j, |H11 θ i j|

/-- The per-step geometric factor certified for the contraction metric
`H11` when `ρ ≥ 1`. -/
def contractionFactor (θ : Params n l m p) : ℝ :=
  H11abs θ / (H11abs θ + θ.epsilon)

/-- Case selector over the two inhabited block positions of `Idx 1 0`. -/
def rowSel (i : Idx 1 0) (a c : ℝ) : ℝ :=
  Sum.elim (fun _ => a) (Sum.elim (fun e => Fin.elim0 e) (fun _ => c)) i

/-- Free parameters with `n = 1`, `l = 0`, `m = p = 1`, the default
tolerance `ε = 0.001`, and a configured contraction-rate lower bound
`ρ = 0.01` (positive but below 1): `X = [[1, 9], [0, 5]]` over the
partitioned index, every other free parameter zero. -/
def slowRhoParams : Params 1 0 1 1 :=
  { X := fun i j => rowSel i (rowSel j 1 9) (rowSel j 0 5),
    Y := 0, B2 := 0, C2 := 0, D21 := 0, D22 := 0, D12 := 0,
    epsilon := 0.001, contraction_rate_lb := 0.01 }

/-- Trajectory A of the `ρ < 1` configuration: initial state `1`. -/
def MA : Model 1 0 1 1 := init slowRhoParams (fun _ => 1)

/-- Trajectory B of the `ρ < 1` configuration: initial state `0`. -/
def MB : Model 1 0 1 1 := init slowRhoParams (fun _ => 0)

/- ### Structural lemmas about the `w` loop -/

/-- `D11` is strictly lower triangular: entries on or above the diagonal
vanish. -/
lemma D11_strict_lower (θ : Params n l m p) {i j : Fin l}
    (h : (i : ℕ) ≤ (j : ℕ)) : D11 θ i j = 0 := by
  simp only [D11, tril, Matrix.neg_apply]
  rw [if_neg (by omega : ¬ ((j : ℤ) ≤ (i : ℤ) + (-1))), neg_zero]

/-- Entries at positions the loop has not reached yet are still zero. -/
lemma wLoop_eq_zero_of_le (θ : Params n l m p) (x : Fin n → ℝ)
    (u : Fin m → ℝ) : ∀ k (j : Fin l), k ≤ (j : ℕ) → wLoop θ x u k j = 0 := by
  intro k
  induction k with
  | zero => intro j _; rfl
  | succ k ih =>
    intro j hj
    have hk : k < l := lt_of_le_of_lt (Nat.le_of_succ_le hj) j.isLt
    have hne : j ≠ (⟨k, hk⟩ : Fin l) := by
      intro he
      have h2 : (j : ℕ) = k := by rw [he]
      omega
    simp only [wLoop, dif_pos hk, Pi.add_apply, Pi.single_eq_of_ne hne,
      ih j (Nat.le_of_succ_le hj), add_zero]

/-- Entries at positions the loop has already passed are never modified
again. -/
lemma wLoop_stable (θ : Params n l m p) (x : Fin n → ℝ) (u : Fin m → ℝ)
    (j : Fin l) (k : ℕ) (hj : (j : ℕ) < k) :
    ∀ d, wLoop θ x u (k + d) j = wLoop θ x u k j := by
  intro d
  induction d with
  | zero => rfl
  | succ d ih =>
    show wLoop θ x u (k + d + 1) j = _
    by_cases h : k + d < l
    · have hne : j ≠ (⟨k + d, h⟩ : Fin l) := by
        intro he
        have h2 : (j : ℕ) = k + d := by rw [he]
        omega
      simp only [wLoop, dif_pos h, Pi.add_apply, Pi.single_eq_of_ne hne,
        add_zero, ih]
    · simp only [wLoop, dif_neg h, ih]

/-- Entries at positions the loop has already passed are never modified
again (monotone form). -/
lemma wLoop_stable_le (θ : Params n l m p) (x : Fin n → ℝ) (u : Fin m → ℝ)
    (j : Fin l) {k k' : ℕ} (hj : (j : ℕ) < k) (hk : k ≤ k') :
    wLoop θ x u k' j = wLoop θ x u k j := by
  obtain ⟨d, rfl⟩ := Nat.exists_eq_add_of_le hk
  exact wLoop_stable θ x u j k hj d

/-- The value the loop writes at coordinate `i`, in terms of the loop state
just before iteration `i`. -/
lemma wSolve_eq_entry (θ : Params n l m p) (x : Fin n → ℝ) (u : Fin m → ℝ)
    (i : Fin l) :
    wSolve θ x u i
      = Real.tanh (((C1 θ *ᵥ x) i + (D11 θ *ᵥ wLoop θ x u i) i
          + (θ.D12 *ᵥ u) i) / Lambda θ i) := by
  have h1 : wSolve θ x u i = wLoop θ x u ((i : ℕ) + 1) i :=
    wLoop_stable_le θ x u i (Nat.lt_succ_self _) i.isLt
  rw [h1]
  have hi : (⟨(i : ℕ), i.isLt⟩ : Fin l) = i := rfl
  simp only [wLoop, dif_pos i.isLt, Pi.add_apply, hi, Pi.single_eq_same,
    wLoop_eq_zero_of_le θ x u i i (le_refl _), zero_add]

/-- Because `D11` is strictly lower triangular, row `i` of `D11` sees the
same values in the pre-iteration-`i` loop state as in the final `w`. -/
lemma mulVec_D11_agree (θ : Params n l m p) (x : Fin n → ℝ) (u : Fin m → ℝ)
    (i : Fin l) :
    (D11 θ *ᵥ wLoop θ x u i) i = (D11 θ *ᵥ wSolve θ x u) i := by
  simp only [Matrix.mulVec, dotProduct]
  refine Finset.sum_congr rfl fun j _ => ?_
  by_cases hj : (j : ℕ) < (i : ℕ)
  · have hw : wSolve θ x u j = wLoop θ x u (i : ℕ) j :=
      wLoop_stable_le θ x u j hj (le_of_lt i.isLt)
    rw [hw]
  · rw [D11_strict_lower θ (le_of_not_lt hj), zero_mul, zero_mul]

/- ### Structural lemmas about the sequence runner -/

/-- `runSteps` produces exactly one output per iteration. -/
lemma runSteps_len (M : Model n l m p) (u : ℕ → Fin m → ℝ) :
    ∀ t, ((runSteps M u t).2).length = t := by
  intro t
  induction t with
  | zero => rfl
  | succ t ih => simp [runSteps, ih]

/-- `runSteps M u t` reads only the inputs at times `0 … t-1`. -/
lemma runSteps_inputs_agree (M : Model n l m p) (u u' : ℕ → Fin m → ℝ) :
    ∀ t, (∀ s, s < t → u s = u' s) → runSteps M u t = runSteps M u' t := by
  intro t
  induction t with
  | zero => intro _; rfl
  | succ t ih =>
    intro h
    simp only [runSteps]
    rw [ih fun s hs => h s (Nat.lt_succ_of_lt hs), h t (Nat.lt_succ_self t)]

/-- `forward`, `reset` and `runSteps` never touch the trainable parameters
or the construction-time buffers. -/
lemma runSteps_frame (M : Model n l m p) (u : ℕ → Fin m → ℝ) :
    ∀ t, (runSteps M u t).1.params = M.params
      ∧ (runSteps M u t).1.x_init = M.x_init
      ∧ (runSteps M u t).1.y_init = M.y_init := by
  intro t
  induction t with
  | zero => exact ⟨rfl, rfl, rfl⟩
  | succ t ih => simpa only [runSteps, forward] using ih

end ContractiveREN

namespace ContractiveREN

variable {n l m p : ℕ}

/-- C1: on every refresh, the derived matrices are recomputed from the free
parameters exactly by the formulas `H = XᵀX + ε·I`, `F = H31`, `B1 = H32`,
`E = 0.5·(H11 + ρ·H33 + Y − Yᵀ)`, `Λ = 0.5·diag(H22)`,
`D11 = −strict_lower_triangular(H22)` and `C1 = −H21`, where `H11 … H33`
are the `(n, l, n)` blocks of `H`. -/
theorem parameterization_formulas (θ : Params n l m p)
    (hε : 0 < θ.epsilon) (hρ : 0 < θ.contraction_rate_lb) :
    H θ = θ.X.transpose * θ.X + θ.epsilon • (1 : Matrix (Idx n l) (Idx n l) ℝ)
    ∧ F θ = H31 θ
    ∧ B1 θ = H32 θ
    ∧ E θ = (0.5 : ℝ) • (H11 θ + θ.contraction_rate_lb • H33 θ
        + θ.Y - θ.Y.transpose)
    ∧ (∀ i, Lambda θ i = (0.5 : ℝ) * H22 θ i i)
    ∧ D11 θ = -(strictLowerTriangular (H22 θ))
    ∧ C1 θ = -(H21 θ) := by
  refine ⟨rfl, rfl, rfl, rfl, fun i => rfl, ?_, rfl⟩
  funext i j
  simp only [D11, strictLowerTriangular, tril, Matrix.neg_apply]
  by_cases hij : (j : ℕ) < (i : ℕ)
  · rw [if_pos (by omega : (j : ℤ) ≤ (i : ℤ) + (-1)), if_pos hij]
  · rw [if_neg (by omega : ¬ ((j : ℤ) ≤ (i : ℤ) + (-1))), if_neg hij,
      neg_zero]

/-- Witness for `parameterization_formulas` at a concrete parameter set. -/
theorem parameterization_formulas_witness :
    0 < zeroParams.epsilon ∧ 0 < zeroParams.contraction_rate_lb
    ∧ D11 zeroParams = -(strictLowerTriangular (H22 zeroParams)) :=
  ⟨zero_lt_one, zero_lt_one,
    (parameterization_formulas zeroParams zero_lt_one
      zero_lt_one).2.2.2.2.2.1⟩

/-- C3: the coordinate-by-coordinate loop output is an exact solution of the
implicit equation `w = tanh(Λ⁻¹(C1·x + D11·w + D12·u))`: `D11` is strictly
lower triangular and substituting the returned `w` back into the right-hand
side reproduces `w` coordinate-wise. -/
theorem w_fixed_point (θ : Params n l m p) (x : Fin n → ℝ) (u : Fin m → ℝ) :
    (∀ i j : Fin l, (i : ℕ) ≤ (j : ℕ) → D11 θ i j = 0)
    ∧ ∀ i : Fin l, wSolve θ x u i
        = Real.tanh (((C1 θ *ᵥ x) i + (D11 θ *ᵥ wSolve θ x u) i
            + (θ.D12 *ᵥ u) i) / Lambda θ i) := by
  refine ⟨fun i j hij => D11_strict_lower θ hij, fun i => ?_⟩
  rw [wSolve_eq_entry θ x u i, mulVec_D11_agree θ x u i]

/-- C4: one step computes `x_next = E⁻¹(F·x + B1·w + B2·u)`, produces the
output `y = C2·x_next + D21·w + D22·u` from the freshly updated state, and
commits the new state (everything else unchanged) before returning. -/
theorem forward_step (M : Model n l m p) (u : Fin m → ℝ) :
    (forward M u).1.x
      = E_inv M.params *ᵥ (F M.params *ᵥ M.x
          + B1 M.params *ᵥ wSolve M.params M.x u + M.params.B2 *ᵥ u)
    ∧ (forward M u).2
      = M.params.C2 *ᵥ (forward M u).1.x
          + M.params.D21 *ᵥ wSolve M.params M.x u + M.params.D22 *ᵥ u
    ∧ (forward M u).1 = { M with x := (forward M u).1.x } :=
  ⟨rfl, rfl, rfl⟩

/-- C5: on an input sequence of length `T ≥ 1`, `run` resets the state,
returns a log of length exactly `T` whose value at time 0 is the buffered
`y_init`, and never consults the input at index `T − 1`: any two input
sequences agreeing before `T − 1` produce identical results. -/
theorem run_shape (M : Model n l m p) (u u' : ℕ → Fin m → ℝ)
    (z : Fin n → ℝ) (T : ℕ) (hT : 1 ≤ T)
    (hu : ∀ t, t < T - 1 → u t = u' t) :
    (run M u T).2.length = T
    ∧ (run M u T).2.head? = some M.y_init
    ∧ run M u T = run M u' T
    ∧ run { M with x := z } u T = run M u T := by
  refine ⟨?_, rfl, ?_, rfl⟩
  · simp only [run, List.length_cons, runSteps_len]
    omega
  · simp only [run, runSteps_inputs_agree (reset M) u u' (T - 1) hu]

/-- Witness for `run_shape` at a concrete model and horizon. -/
theorem run_shape_witness :
    (1 : ℕ) ≤ 2
    ∧ ((run M0 (fun _ => 0) 2).2.length = 2
      ∧ (run M0 (fun _ => 0) 2).2.head? = some M0.y_init
      ∧ run M0 (fun _ => 0) 2 = run M0 (fun _ => 0) 2
      ∧ run { M0 with x := fun _ => 5 } (fun _ => 0) 2
          = run M0 (fun _ => 0) 2) :=
  ⟨by decide,
    run_shape M0 (fun _ => 0) (fun _ => 0) (fun _ => 5) 2 (by decide)
      (fun t _ => rfl)⟩

/-- C9: `x_init` and `y_init` are fixed at construction — `y_init` is the
construction-time product `C2·x_init` — and no invocation of `forward`,
`reset` or `run` ever mutates them; every `run` seeds its time-0 output with
the stored `y_init` buffer (not with a recomputation from the current
parameters). -/
theorem buffers_frozen (θ : Params n l m p) (x0 : Fin n → ℝ)
    (M : Model n l m p) (u : Fin m → ℝ) (us : ℕ → Fin m → ℝ) (T : ℕ) :
    (init θ x0).x_init = x0 ∧ (init θ x0).y_init = θ.C2 *ᵥ x0
    ∧ (forward M u).1.x_init = M.x_init
    ∧ (forward M u).1.y_init = M.y_init
    ∧ (reset M).x_init = M.x_init ∧ (reset M).y_init = M.y_init
    ∧ (run M us T).1.x_init = M.x_init
    ∧ (run M us T).1.y_init = M.y_init
    ∧ (run M us T).2.head? = some M.y_init := by
  refine ⟨rfl, rfl, rfl, rfl, rfl, rfl, ?_, ?_, rfl⟩
  · exact (runSteps_frame (reset M) us (T - 1)).2.1
  · exact (runSteps_frame (reset M) us (T - 1)).2.2

/-- C10: invoking the model instance directly delegates to the full-horizon
runner `run` — which first resets the state to `x_init`, so the result and
the post-call state are independent of the pre-call persistent state; the
call interface can never advance the current state by a single step. -/
theorem call_is_run (M : Model n l m p) (z : Fin n → ℝ)
    (u : ℕ → Fin m → ℝ) (T : ℕ) :
    call M u T = run M u T
    ∧ run { M with x := z } u T = run M u T :=
  ⟨rfl, rfl⟩

/- ### Quadratic-form analysis of the certificate matrix `H` -/

lemma dot_self_nonneg {κ : Type*} [Fintype κ] (v : κ → ℝ) : 0 ≤ v ⬝ᵥ v :=
  Finset.sum_nonneg fun i _ => mul_self_nonneg (v i)

lemma dot_self_pos {κ : Type*} [Fintype κ] {v : κ → ℝ} (hv : v ≠ 0) :
    0 < v ⬝ᵥ v := by
  obtain ⟨i, hi⟩ := Function.ne_iff.mp hv
  exact Finset.sum_pos' (fun j _ => mul_self_nonneg (v j))
    ⟨i, Finset.mem_univ i, mul_self_pos.mpr hi⟩

/-- The quadratic form of `H = XᵀX + ε·I` is `‖X·v‖² + ε·‖v‖²`. -/
lemma H_quad_eq (θ : Params n l m p) (v : Idx n l → ℝ) :
    v ⬝ᵥ (H θ *ᵥ v)
      = (θ.X *ᵥ v) ⬝ᵥ (θ.X *ᵥ v) + θ.epsilon * (v ⬝ᵥ v) := by
  simp only [H, Matrix.add_mulVec, Matrix.smul_mulVec_assoc, Matrix.one_mulVec,
    dotProduct_add, dotProduct_smul, smul_eq_mul]
  congr 1
  rw [← Matrix.mulVec_mulVec, Matrix.dotProduct_mulVec, Matrix.vecMul_transpose]

lemma H_quad_lower (θ : Params n l m p) (v : Idx n l → ℝ) :
    θ.epsilon * (v ⬝ᵥ v) ≤ v ⬝ᵥ (H θ *ᵥ v) := by
  rw [H_quad_eq]
  linarith [dot_self_nonneg (θ.X *ᵥ v)]

lemma H_quad_pos (θ : Params n l m p) (hε : 0 < θ.epsilon)
    {v : Idx n l → ℝ} (hv : v ≠ 0) : 0 < v ⬝ᵥ (H θ *ᵥ v) :=
  lt_of_lt_of_le (mul_pos hε (dot_self_pos hv)) (H_quad_lower θ v)

lemma H_isSymm (θ : Params n l m p) : (H θ).IsSymm := by
  show (H θ)ᵀ = H θ
  simp only [H, Matrix.transpose_add, Matrix.transpose_smul,
    Matrix.transpose_one, Matrix.transpose_mul, Matrix.transpose_transpose]

lemma H_symm_entry (θ : Params n l m p) (I J : Idx n l) :
    H θ I J = H θ J I := by
  have hs := H_isSymm θ
  conv_lhs => rw [← hs]
  exact Matrix.transpose_apply (H θ) I J

lemma H_posDef (θ : Params n l m p) (hε : 0 < θ.epsilon) :
    (H θ).PosDef := by
  constructor
  · show (H θ)ᴴ = H θ
    rw [Matrix.conjTranspose_eq_transpose_of_trivial]
    exact H_isSymm θ
  · intro v hv
    have h1 : star v = v := funext fun i => star_trivial _
    rw [h1]
    exact H_quad_pos θ hε hv

lemma H_diag_pos (θ : Params n l m p) (hε : 0 < θ.epsilon) (I : Idx n l) :
    0 < H θ I I := by
  have hv : (Pi.single I 1 : Idx n l → ℝ) ≠ 0 := by
    intro h0
    have h1 := congrFun h0 I
    simp [Pi.single_eq_same] at h1
  simpa using H_quad_pos θ hε hv

lemma Lambda_pos (θ : Params n l m p) (hε : 0 < θ.epsilon) (i : Fin l) :
    0 < Lambda θ i := by
  have h := H_diag_pos θ hε (b2 i)
  have h05 : (0 : ℝ) < 0.5 := by norm_num
  exact mul_pos h05 h

/- ### Block decomposition of the quadratic form -/

lemma blk_dot {a b c : _} (a' : Fin n → ℝ) (b' : Fin l → ℝ) (c' : Fin n → ℝ) :
    blk a b c ⬝ᵥ blk a' b' c' = a ⬝ᵥ a' + b ⬝ᵥ b' + c ⬝ᵥ c' := by
  simp [blk, dotProduct, Fintype.sum_sum_type, add_assoc]

lemma H_mulVec_blk (θ : Params n l m p) (a : Fin n → ℝ) (b : Fin l → ℝ)
    (c : Fin n → ℝ) :
    H θ *ᵥ blk a b c
      = blk (H11 θ *ᵥ a + H12 θ *ᵥ b + H13 θ *ᵥ c)
          (H21 θ *ᵥ a + H22 θ *ᵥ b + H23 θ *ᵥ c)
          (H31 θ *ᵥ a + H32 θ *ᵥ b + H33 θ *ᵥ c) := by
  funext I
  rcases I with i | j | k
  · simp [blk, Matrix.mulVec, dotProduct, Fintype.sum_sum_type, H11, H12,
      H13, add_assoc]
  · simp [blk, Matrix.mulVec, dotProduct, Fintype.sum_sum_type, H21, H22,
      H23, add_assoc]
  · simp [blk, Matrix.mulVec, dotProduct, Fintype.sum_sum_type, H31, H32,
      H33, add_assoc]

lemma H_quad_blk (θ : Params n l m p) (a : Fin n → ℝ) (b : Fin l → ℝ)
    (c : Fin n → ℝ) :
    blk a b c ⬝ᵥ (H θ *ᵥ blk a b c)
      = a ⬝ᵥ (H11 θ *ᵥ a) + a ⬝ᵥ (H12 θ *ᵥ b) + a ⬝ᵥ (H13 θ *ᵥ c)
        + b ⬝ᵥ (H21 θ *ᵥ a) + b ⬝ᵥ (H22 θ *ᵥ b) + b ⬝ᵥ (H23 θ *ᵥ c)
        + c ⬝ᵥ (H31 θ *ᵥ a) + c ⬝ᵥ (H32 θ *ᵥ b) + c ⬝ᵥ (H33 θ *ᵥ c) := by
  rw [H_mulVec_blk, blk_dot]
  simp only [dotProduct_add]
  ring

lemma H11_quad_blk (θ : Params n l m p) (v : Fin n → ℝ) :
    v ⬝ᵥ (H11 θ *ᵥ v)
      = blk v (0 : Fin l → ℝ) (0 : Fin n → ℝ)
          ⬝ᵥ (H θ *ᵥ blk v (0 : Fin l → ℝ) (0 : Fin n → ℝ)) := by
  rw [H_quad_blk]
  simp

lemma H33_quad_blk (θ : Params n l m p) (v : Fin n → ℝ) :
    v ⬝ᵥ (H33 θ *ᵥ v)
      = blk (0 : Fin n → ℝ) (0 : Fin l → ℝ) v
          ⬝ᵥ (H θ *ᵥ blk (0 : Fin n → ℝ) (0 : Fin l → ℝ) v) := by
  rw [H_quad_blk]
  simp

lemma blk1_ne_zero {v : Fin n → ℝ} (hv : v ≠ 0) :
    blk v (0 : Fin l → ℝ) (0 : Fin n → ℝ) ≠ 0 := by
  intro h0
  apply hv
  funext i
  simpa [blk] using congrFun h0 (b1 (l := l) i)

lemma blk3_ne_zero {v : Fin n → ℝ} (hv : v ≠ 0) :
    blk (0 : Fin n → ℝ) (0 : Fin l → ℝ) v ≠ 0 := by
  intro h0
  apply hv
  funext i
  simpa [blk] using congrFun h0 (b3 (l := l) i)

/- ### Invertibility of `E` -/

/-- The skew part `Y − Yᵀ` does not contribute to the quadratic form of
`E`. -/
lemma E_quad (θ : Params n l m p) (v : Fin n → ℝ) :
    v ⬝ᵥ (E θ *ᵥ v)
      = (0.5 : ℝ) * (v ⬝ᵥ (H11 θ *ᵥ v)
          + θ.contraction_rate_lb * (v ⬝ᵥ (H33 θ *ᵥ v))) := by
  have hskew : v ⬝ᵥ (θ.Y.transpose *ᵥ v) = v ⬝ᵥ (θ.Y *ᵥ v) := by
    rw [Matrix.mulVec_transpose, dotProduct_comm, ← Matrix.dotProduct_mulVec]
  simp only [E, P, Matrix.smul_mulVec_assoc, Matrix.add_mulVec,
    Matrix.sub_mulVec, dotProduct_smul, dotProduct_add, dotProduct_sub,
    smul_eq_mul, hskew]
  ring

lemma E_quad_pos (θ : Params n l m p) (hε : 0 < θ.epsilon)
    (hρ : 0 < θ.contraction_rate_lb) {v : Fin n → ℝ} (hv : v ≠ 0) :
    0 < v ⬝ᵥ (E θ *ᵥ v) := by
  rw [E_quad]
  have h11 : 0 < v ⬝ᵥ (H11 θ *ᵥ v) := by
    rw [H11_quad_blk]
    exact H_quad_pos θ hε (blk1_ne_zero hv)
  have h33 : 0 < v ⬝ᵥ (H33 θ *ᵥ v) := by
    rw [H33_quad_blk]
    exact H_quad_pos θ hε (blk3_ne_zero hv)
  have hr := mul_pos hρ h33
  linarith

lemma E_det_isUnit (θ : Params n l m p) (hε : 0 < θ.epsilon)
    (hρ : 0 < θ.contraction_rate_lb) : IsUnit (E θ).det := by
  rw [isUnit_iff_ne_zero]
  intro hdet
  obtain ⟨v, hv, hEv⟩ := Matrix.exists_mulVec_eq_zero_iff.mpr hdet
  have hq := E_quad_pos θ hε hρ hv
  rw [hEv, dotProduct_zero] at hq
  exact lt_irrefl 0 hq

lemma E_inv_mul (θ : Params n l m p) (hε : 0 < θ.epsilon)
    (hρ : 0 < θ.contraction_rate_lb) : E_inv θ * E θ = 1 :=
  Matrix.nonsing_inv_mul _ (E_det_isUnit θ hε hρ)

lemma mul_E_inv (θ : Params n l m p) (hε : 0 < θ.epsilon)
    (hρ : 0 < θ.contraction_rate_lb) : E θ * E_inv θ = 1 :=
  Matrix.mul_nonsing_inv _ (E_det_isUnit θ hε hρ)

/-- C2: for every real `X`, `Y` and configured `ε > 0`, `ρ > 0`, the
derived `H` is symmetric positive definite, `Λ` is strictly positive in
every coordinate, and `E` is invertible with `E⁻¹·E = I` — by construction,
independently of training progress. -/
theorem derived_invariants (θ : Params n l m p) (hε : 0 < θ.epsilon)
    (hρ : 0 < θ.contraction_rate_lb) :
    (H θ).IsSymm ∧ (H θ).PosDef
    ∧ (∀ i, 0 < Lambda θ i)
    ∧ IsUnit (E θ).det
    ∧ E_inv θ * E θ = 1 :=
  ⟨H_isSymm θ, H_posDef θ hε, Lambda_pos θ hε, E_det_isUnit θ hε hρ,
    E_inv_mul θ hε hρ⟩

/- ### Absence of error handling (claim C8) -/

/-- C8: evaluation of the constructor at a configuration the claim says is
rejected: with `pos_def_tol = −1` and `contraction_rate_lb = −1` the
constructor performs no validation and produces a model instance carrying
the non-positive scalars unchanged — and the invariant the rejection was
meant to protect indeed fails (`Λ` has a negative coordinate). -/
theorem constructor_no_validation :
    (init invalidParams (fun _ => 0)).params.epsilon = -1
    ∧ (init invalidParams (fun _ => 0)).params.contraction_rate_lb = -1
    ∧ (init invalidParams (fun _ => 0)).x = (fun _ => 0)
    ∧ Lambda invalidParams 0 < 0 := by
  refine ⟨rfl, rfl, rfl, ?_⟩
  have hH : H invalidParams (b2 0) (b2 0) = -1 := by
    simp [H, invalidParams, Matrix.one_apply]
  simp only [Lambda, Matrix.diag, H22, hH]
  norm_num

/-- Witness for `derived_invariants` at a concrete parameter set. -/
theorem derived_invariants_witness :
    0 < zeroParams.epsilon ∧ 0 < zeroParams.contraction_rate_lb
    ∧ ((H zeroParams).IsSymm ∧ (H zeroParams).PosDef
      ∧ (∀ i, 0 < Lambda zeroParams i)
      ∧ IsUnit (E zeroParams).det
      ∧ E_inv zeroParams * E zeroParams = 1) :=
  ⟨zero_lt_one, zero_lt_one,
    derived_invariants zeroParams zero_lt_one zero_lt_one⟩

/- ### Analytic facts about the scalar nonlinearity `tanh` -/

lemma tanh_hasDerivAt (x : ℝ) :
    HasDerivAt Real.tanh (1 / Real.cosh x ^ 2) x := by
  have h := (Real.hasDerivAt_sinh x).div (Real.hasDerivAt_cosh x)
    (Real.cosh_pos x).ne'
  have heq : (Real.cosh x * Real.cosh x - Real.sinh x * Real.sinh x)
      / Real.cosh x ^ 2 = 1 / Real.cosh x ^ 2 := by
    rw [show Real.cosh x * Real.cosh x - Real.sinh x * Real.sinh x
        = Real.cosh x ^ 2 - Real.sinh x ^ 2 by ring,
      Real.cosh_sq_sub_sinh_sq]
  rw [heq] at h
  have hfun : Real.tanh = fun y => Real.sinh y / Real.cosh y :=
    funext fun y => Real.tanh_eq_sinh_div_cosh y
  rw [hfun]
  exact h

lemma tanh_monotone : Monotone Real.tanh := by
  have hdiff : Differentiable ℝ Real.tanh :=
    fun y => (tanh_hasDerivAt y).differentiableAt
  refine monotone_of_deriv_nonneg hdiff ?_
  intro y
  rw [(tanh_hasDerivAt y).deriv]
  positivity

lemma tanh_lipschitz (s t : ℝ) :
    |Real.tanh s - Real.tanh t| ≤ |s - t| := by
  have hf : ∀ y ∈ (Set.univ : Set ℝ),
      HasDerivWithinAt Real.tanh (1 / Real.cosh y ^ 2) Set.univ y :=
    fun y _ => (tanh_hasDerivAt y).hasDerivWithinAt
  have hbound : ∀ y ∈ (Set.univ : Set ℝ), ‖1 / Real.cosh y ^ 2‖ ≤ 1 := by
    intro y _
    rw [Real.norm_eq_abs, abs_of_nonneg (by positivity),
      div_le_one (by positivity)]
    have h1 := Real.one_le_cosh y
    nlinarith
  have h := Convex.norm_image_sub_le_of_norm_hasDerivWithin_le hf hbound
    convex_univ (Set.mem_univ t) (Set.mem_univ s)
  simpa [Real.norm_eq_abs] using h

/-- The incremental sector condition of `tanh`: the increment has the same
sign as, and magnitude at most, the argument increment. -/
lemma tanh_iqc (s t : ℝ) :
    0 ≤ (Real.tanh s - Real.tanh t) * ((s - t) - (Real.tanh s - Real.tanh t)) := by
  rcases le_total t s with h | h
  · have hm : 0 ≤ Real.tanh s - Real.tanh t :=
      sub_nonneg.mpr (tanh_monotone h)
    have hl := tanh_lipschitz s t
    rw [abs_of_nonneg hm, abs_of_nonneg (by linarith : (0:ℝ) ≤ s - t)] at hl
    nlinarith
  · have hm : Real.tanh s - Real.tanh t ≤ 0 :=
      sub_nonpos.mpr (tanh_monotone h)
    have hl := tanh_lipschitz s t
    rw [abs_of_nonpos hm, abs_of_nonpos (by linarith : s - t ≤ 0)] at hl
    nlinarith

/- ### No contraction for small `ρ`: concrete evaluation -/

lemma mulVec_fin0 {κ : Type*} (A : Matrix κ (Fin 0) ℝ) (w : Fin 0 → ℝ) :
    A *ᵥ w = 0 := by
  funext i
  simp [Matrix.mulVec, dotProduct]

lemma slow_F : F slowRhoParams 0 0 = 9 := by
  norm_num [F, H31, H, slowRhoParams, Matrix.mul_apply, Matrix.one_apply,
    Matrix.add_apply, Matrix.smul_apply, Matrix.transpose_apply,
    Fintype.sum_sum_type, Fin.sum_univ_one, rowSel, b1, b2, b3,
    Sum.inr_ne_inl, Sum.inl_ne_inr]

lemma slow_E : E slowRhoParams 0 0 = 1.030505 := by
  norm_num [E, P, H11, H33, H, slowRhoParams, Matrix.mul_apply,
    Matrix.one_apply, Matrix.add_apply, Matrix.sub_apply, Matrix.smul_apply,
    Matrix.transpose_apply, Matrix.zero_apply, Fintype.sum_sum_type,
    Fin.sum_univ_one, rowSel]

lemma slow_E_inv : E_inv slowRhoParams 0 0 * (1.030505 : ℝ) = 1 := by
  have h := E_inv_mul slowRhoParams (by norm_num [slowRhoParams])
    (by norm_num [slowRhoParams])
  have h00 := congrFun (congrFun h 0) 0
  rw [Matrix.mul_apply] at h00
  simp only [Fin.sum_univ_one, Matrix.one_apply_eq] at h00
  rw [slow_E] at h00
  exact h00

/-- One `forward` step of the `ρ < 1` configuration multiplies the scalar
state by `9 · E⁻¹₀₀`. -/
lemma slow_step (M : Model 1 0 1 1) (hp : M.params = slowRhoParams)
    (u : Fin 1 → ℝ) :
    (forward M u).1.x 0 = E_inv slowRhoParams 0 0 * (9 * M.x 0) := by
  show nextState M.params M.x u 0 = _
  rw [hp]
  have hB1 : B1 slowRhoParams *ᵥ wSolve slowRhoParams M.x u = 0 :=
    mulVec_fin0 _ _
  have hB2 : slowRhoParams.B2 = 0 := rfl
  rw [nextState, hB1, hB2, Matrix.zero_mulVec, add_zero, add_zero]
  simp only [Matrix.mulVec, dotProduct, Fin.sum_univ_one]
  rw [slow_F]

/-- C6 counterexample: an admissible free-parameter set with the configured
contraction-rate lower bound `ρ = 0.01 > 0` under which two state
trajectories driven by the identical (zero) input sequence move apart by a
factor of at least 8 per step — the distance grows instead of shrinking
geometrically, so the construction does not guarantee convergence for every
`ρ > 0`. -/
theorem no_contraction_for_small_rho :
    slowRhoParams.contraction_rate_lb = 0.01
    ∧ 0 < slowRhoParams.epsilon
    ∧ |MA.x 0 - MB.x 0| = 1
    ∧ 8 * |MA.x 0 - MB.x 0|
        ≤ |(runSteps MA (fun _ => 0) 1).1.x 0
            - (runSteps MB (fun _ => 0) 1).1.x 0|
    ∧ 64 * |MA.x 0 - MB.x 0|
        ≤ |(runSteps MA (fun _ => 0) 2).1.x 0
            - (runSteps MB (fun _ => 0) 2).1.x 0| := by
  have hc : E_inv slowRhoParams 0 0 * 1.030505 = 1 := slow_E_inv
  set c := E_inv slowRhoParams 0 0 with hc_def
  have h8 : 8 ≤ 9 * c := by linarith
  have hc0 : 0 ≤ c := by linarith
  have hxA : MA.x 0 = 1 := rfl
  have hxB : MB.x 0 = 0 := rfl
  have hA1 : (runSteps MA (fun _ => 0) 1).1.x 0 = c * (9 * 1) := by
    have h := slow_step MA rfl 0
    rw [hxA] at h
    exact h
  have hB1 : (runSteps MB (fun _ => 0) 1).1.x 0 = c * (9 * 0) := by
    have h := slow_step MB rfl 0
    rw [hxB] at h
    exact h
  have hA2 : (runSteps MA (fun _ => 0) 2).1.x 0 = c * (9 * (c * (9 * 1))) := by
    have h := slow_step (forward MA 0).1 rfl 0
    rw [show (forward MA 0).1.x 0 = c * (9 * 1) by
      have h1 := slow_step MA rfl 0
      rw [hxA] at h1
      exact h1] at h
    exact h
  have hB2 : (runSteps MB (fun _ => 0) 2).1.x 0 = c * (9 * (c * (9 * 0))) := by
    have h := slow_step (forward MB 0).1 rfl 0
    rw [show (forward MB 0).1.x 0 = c * (9 * 0) by
      have h1 := slow_step MB rfl 0
      rw [hxB] at h1
      exact h1] at h
    exact h
  refine ⟨rfl, by norm_num [slowRhoParams], ?_, ?_, ?_⟩
  · rw [hxA, hxB]
    norm_num
  · rw [hxA, hxB, hA1, hB1,
      show c * (9 * 1) - c * (9 * 0) = 9 * c by ring,
      abs_of_nonneg (by linarith : (0:ℝ) ≤ 9 * c)]
    rw [show (1:ℝ) - 0 = 1 by ring, abs_one]
    linarith
  · rw [hxA, hxB, hA2, hB2,
      show c * (9 * (c * (9 * 1))) - c * (9 * (c * (9 * 0)))
        = (9 * c) * (9 * c) by ring,
      abs_of_nonneg (mul_nonneg (by linarith : (0:ℝ) ≤ 9 * c)
        (by linarith : (0:ℝ) ≤ 9 * c))]
    rw [show (1:ℝ) - 0 = 1 by ring, abs_one]
    nlinarith

/- ### Ill-conditioned `E` silently tolerated (claim C7) -/

lemma ill_E_00 : E illParams 0 0 = 0.5 + 1e-12 := by
  norm_num [E, P, H11, H33, H, illParams, pick1, Matrix.mul_apply,
    Matrix.one_apply, Matrix.add_apply, Matrix.sub_apply, Matrix.smul_apply,
    Matrix.transpose_apply, Matrix.zero_apply, Fintype.sum_sum_type,
    Fin.sum_univ_two, b1, b2, b3, Sum.inr_ne_inl, Sum.inl_ne_inr]

lemma ill_E_11 : E illParams 1 1 = 1e-12 := by
  norm_num [E, P, H11, H33, H, illParams, pick1, Matrix.mul_apply,
    Matrix.one_apply, Matrix.add_apply, Matrix.sub_apply, Matrix.smul_apply,
    Matrix.transpose_apply, Matrix.zero_apply, Fintype.sum_sum_type,
    Fin.sum_univ_two, b1, b2, b3, Sum.inr_ne_inl, Sum.inl_ne_inr]

lemma ill_E_off : E illParams 0 1 = 0 ∧ E illParams 1 0 = 0 := by
  constructor <;>
  · norm_num [E, P, H11, H33, H, illParams, pick1, Matrix.mul_apply,
      Matrix.one_apply, Matrix.add_apply, Matrix.sub_apply,
      Matrix.smul_apply, Matrix.transpose_apply, Matrix.zero_apply,
      Fintype.sum_sum_type, Fin.sum_univ_two, b1, b2, b3, Sum.inr_ne_inl,
      Sum.inl_ne_inr]

/-- C7: evaluation of the code path at an accepted configuration in the
numerically unstable regime the specification says must be flagged
(`pos_def_tol = 10⁻¹²`): `E` is diagonal with eigenvalues `0.5 + 10⁻¹²`
and `10⁻¹²`, so its inversion genuinely succeeds while its spectral
condition number exceeds `10¹¹`, and the step runs to completion and
returns ordinary values — the conditioning of `E` is never tested and no
`SingularMatrix` error carrying a condition number is ever produced. -/
theorem ill_conditioned_silently_tolerated :
    0 < illParams.epsilon
    ∧ E_inv illParams * E illParams = 1
    ∧ E illParams 0 1 = 0 ∧ E illParams 1 0 = 0
    ∧ (10 : ℝ) ^ 11 ≤ E illParams 0 0 / E illParams 1 1
    ∧ (forward (init illParams (fun _ => 0)) (fun _ => 0)).1.x = 0
    ∧ (forward (init illParams (fun _ => 0)) (fun _ => 0)).2 = 0 := by
  refine ⟨by norm_num [illParams],
    E_inv_mul illParams (by norm_num [illParams]) (by norm_num [illParams]),
    ill_E_off.1, ill_E_off.2, ?_, ?_, ?_⟩
  · rw [ill_E_00, ill_E_11]
    norm_num
  · funext i
    simp [forward, init, nextState, Matrix.mulVec, dotProduct, illParams]
  · funext k
    simp [forward, init, Matrix.mulVec, dotProduct, illParams]

/- ### Contraction of the state recursion for `ρ ≥ 1` -/

/-- The fixed-point characterisation of the loop output (shared form). -/
lemma wSolve_fixed (θ : Params n l m p) (x : Fin n → ℝ) (u : Fin m → ℝ)
    (i : Fin l) :
    wSolve θ x u i
      = Real.tanh (((C1 θ *ᵥ x) i + (D11 θ *ᵥ wSolve θ x u) i
          + (θ.D12 *ᵥ u) i) / Lambda θ i) := by
  rw [wSolve_eq_entry θ x u i, mulVec_D11_agree θ x u i]

lemma dot_mulVec_comm {κ κ' : Type*} [Fintype κ] [Fintype κ']
    (A : Matrix κ κ' ℝ) (B : Matrix κ' κ ℝ) (hAB : ∀ i j, A i j = B j i)
    (a : κ → ℝ) (b : κ' → ℝ) :
    a ⬝ᵥ (A *ᵥ b) = b ⬝ᵥ (B *ᵥ a) := by
  simp only [dotProduct, Matrix.mulVec, Finset.mul_sum]
  rw [Finset.sum_comm]
  exact Finset.sum_congr rfl fun j _ => Finset.sum_congr rfl fun i _ => by
    rw [hAB i j]; ring

lemma dot_transpose_mulVec {κ : Type*} [Fintype κ] (A : Matrix κ κ ℝ)
    (v : κ → ℝ) : v ⬝ᵥ (Aᵀ *ᵥ v) = v ⬝ᵥ (A *ᵥ v) := by
  rw [Matrix.mulVec_transpose, dotProduct_comm, ← Matrix.dotProduct_mulVec]

lemma dot_diag_lambda (θ : Params n l m p) (w : Fin l → ℝ) :
    w ⬝ᵥ (Matrix.diagonal (fun i => 2 * Lambda θ i) *ᵥ w)
      = 2 * ∑ i, Lambda θ i * w i ^ 2 := by
  simp only [dotProduct, Matrix.mulVec_diagonal, Finset.mul_sum]
  exact Finset.sum_congr rfl fun i _ => by ring

lemma H22_symm (θ : Params n l m p) (i j : Fin l) :
    H22 θ i j = H22 θ j i :=
  H_symm_entry θ (b2 i) (b2 j)

/-- `H22` splits into its strict lower part `−D11`, its diagonal `2·Λ`, and
the transpose of the strict lower part. -/
lemma H22_decomp (θ : Params n l m p) :
    H22 θ = (-(D11 θ)) + Matrix.diagonal (fun i => 2 * Lambda θ i)
      + (-(D11 θ))ᵀ := by
  funext i j
  simp only [Matrix.add_apply, Matrix.neg_apply, Matrix.transpose_apply,
    D11, tril, Matrix.diagonal_apply, Lambda, Matrix.diag, neg_neg]
  rcases lt_trichotomy (i : ℕ) (j : ℕ) with h | h | h
  · rw [if_neg (by omega : ¬ ((j : ℤ) ≤ (i : ℤ) + (-1))),
      if_neg (Fin.ne_of_val_ne (by omega : (i : ℕ) ≠ (j : ℕ))),
      if_pos (by omega : (i : ℤ) ≤ (j : ℤ) + (-1)), H22_symm θ j i]
    ring
  · have hij : i = j := Fin.ext h
    subst hij
    rw [if_neg (by omega : ¬ ((i : ℤ) ≤ (i : ℤ) + (-1))), if_pos rfl]
    ring
  · rw [if_pos (by omega : (j : ℤ) ≤ (i : ℤ) + (-1)),
      if_neg (Fin.ne_of_val_ne (by omega : (i : ℕ) ≠ (j : ℕ))),
      if_neg (by omega : ¬ ((i : ℤ) ≤ (j : ℤ) + (-1)))]
    ring

lemma H11_quad_lower (θ : Params n l m p) (v : Fin n → ℝ) :
    θ.epsilon * (v ⬝ᵥ v) ≤ v ⬝ᵥ (H11 θ *ᵥ v) := by
  rw [H11_quad_blk]
  have h := H_quad_lower θ (blk v (0 : Fin l → ℝ) (0 : Fin n → ℝ))
  rw [blk_dot] at h
  simpa using h

lemma H33_quad_nonneg (θ : Params n l m p) (hε : 0 ≤ θ.epsilon)
    (v : Fin n → ℝ) : 0 ≤ v ⬝ᵥ (H33 θ *ᵥ v) := by
  rw [H33_quad_blk]
  refine le_trans ?_ (H_quad_lower θ _)
  exact mul_nonneg hε (dot_self_nonneg _)

lemma H11abs_nonneg (θ : Params n l m p) : 0 ≤ H11abs θ :=
  Finset.sum_nonneg fun i _ => Finset.sum_nonneg fun j _ => abs_nonneg _

lemma H11_quad_upper (θ : Params n l m p) (v : Fin n → ℝ) :
    v ⬝ᵥ (H11 θ *ᵥ v) ≤ H11abs θ * (v ⬝ᵥ v) := by
  have hterm : ∀ k : Fin n, v k * v k ≤ v ⬝ᵥ v := fun k =>
    Finset.single_le_sum (fun a _ => mul_self_nonneg (v a))
      (Finset.mem_univ k)
  have hdot : v ⬝ᵥ (H11 θ *ᵥ v) = ∑ i, ∑ j, v i * (H11 θ i j * v j) := by
    simp [dotProduct, Matrix.mulVec, Finset.mul_sum]
  rw [hdot, H11abs, Finset.sum_mul]
  refine Finset.sum_le_sum fun i _ => ?_
  rw [Finset.sum_mul]
  refine Finset.sum_le_sum fun j _ => ?_
  calc v i * (H11 θ i j * v j) ≤ |v i * (H11 θ i j * v j)| := le_abs_self _
    _ = |H11 θ i j| * (|v i| * |v j|) := by
        rw [abs_mul, abs_mul]; ring
    _ ≤ |H11 θ i j| * (v ⬝ᵥ v) := by
        refine mul_le_mul_of_nonneg_left ?_ (abs_nonneg _)
        nlinarith [hterm i, hterm j, sq_nonneg (|v i| - |v j|),
          abs_mul_abs_self (v i), abs_mul_abs_self (v j)]

/-- The summed incremental sector condition of the nonlinearity. -/
lemma iqc_sum (θ : Params n l m p) (hε : 0 < θ.epsilon)
    (xa xb : Fin n → ℝ) (u : Fin m → ℝ) :
    ∑ i, Lambda θ i * ((wSolve θ xa u - wSolve θ xb u) i) ^ 2
      ≤ (wSolve θ xa u - wSolve θ xb u) ⬝ᵥ
          (C1 θ *ᵥ (xa - xb)
            + D11 θ *ᵥ (wSolve θ xa u - wSolve θ xb u)) := by
  have key : ∀ i : Fin l,
      Lambda θ i * ((wSolve θ xa u - wSolve θ xb u) i) ^ 2
        ≤ ((wSolve θ xa u - wSolve θ xb u) i)
            * ((C1 θ *ᵥ (xa - xb)) i
              + (D11 θ *ᵥ (wSolve θ xa u - wSolve θ xb u)) i) := by
    intro i
    simp only [Pi.sub_apply]
    have hΛ : 0 < Lambda θ i := Lambda_pos θ hε i
    set Sa := (C1 θ *ᵥ xa) i + (D11 θ *ᵥ wSolve θ xa u) i
      + (θ.D12 *ᵥ u) i with hSa
    set Sb := (C1 θ *ᵥ xb) i + (D11 θ *ᵥ wSolve θ xb u) i
      + (θ.D12 *ᵥ u) i with hSb
    have hwa : wSolve θ xa u i = Real.tanh (Sa / Lambda θ i) :=
      wSolve_fixed θ xa u i
    have hwb : wSolve θ xb u i = Real.tanh (Sb / Lambda θ i) :=
      wSolve_fixed θ xb u i
    set D := Real.tanh (Sa / Lambda θ i) - Real.tanh (Sb / Lambda θ i)
      with hD
    have hiqc := tanh_iqc (Sa / Lambda θ i) (Sb / Lambda θ i)
    rw [← hD] at hiqc
    have h3 : 0 ≤ Lambda θ i
        * (D * ((Sa / Lambda θ i - Sb / Lambda θ i) - D)) :=
      mul_nonneg hΛ.le hiqc
    have h4 : Lambda θ i * (D * ((Sa / Lambda θ i - Sb / Lambda θ i) - D))
        = D * (Sa - Sb) - Lambda θ i * D ^ 2 := by
      field_simp
      ring
    rw [h4] at h3
    have h5 : Lambda θ i * D ^ 2 ≤ D * (Sa - Sb) := by linarith
    have h6 : Sa - Sb = (C1 θ *ᵥ (xa - xb)) i
        + (D11 θ *ᵥ (wSolve θ xa u - wSolve θ xb u)) i := by
      rw [hSa, hSb, Matrix.mulVec_sub, Matrix.mulVec_sub]
      simp only [Pi.sub_apply]
      ring
    rw [hwa, hwb, ← hD, ← h6]
    exact h5
  have hrhs : (wSolve θ xa u - wSolve θ xb u) ⬝ᵥ
      (C1 θ *ᵥ (xa - xb) + D11 θ *ᵥ (wSolve θ xa u - wSolve θ xb u))
      = ∑ i, ((wSolve θ xa u - wSolve θ xb u) i)
          * ((C1 θ *ᵥ (xa - xb)) i
            + (D11 θ *ᵥ (wSolve θ xa u - wSolve θ xb u)) i) := rfl
  rw [hrhs]
  exact Finset.sum_le_sum fun i _ => key i

/-- The state-difference recursion behind one `forward` step. -/
lemma E_mulVec_diff (θ : Params n l m p) (hε : 0 < θ.epsilon)
    (hρ : 0 < θ.contraction_rate_lb) (xa xb : Fin n → ℝ) (u : Fin m → ℝ) :
    E θ *ᵥ (nextState θ xa u - nextState θ xb u)
      = F θ *ᵥ (xa - xb)
        + B1 θ *ᵥ (wSolve θ xa u - wSolve θ xb u) := by
  have hveq : (F θ *ᵥ xa + B1 θ *ᵥ wSolve θ xa u + θ.B2 *ᵥ u)
      - (F θ *ᵥ xb + B1 θ *ᵥ wSolve θ xb u + θ.B2 *ᵥ u)
      = F θ *ᵥ (xa - xb) + B1 θ *ᵥ (wSolve θ xa u - wSolve θ xb u) := by
    rw [Matrix.mulVec_sub, Matrix.mulVec_sub]
    abel
  have h1 : nextState θ xa u - nextState θ xb u
      = E_inv θ *ᵥ (F θ *ᵥ (xa - xb)
          + B1 θ *ᵥ (wSolve θ xa u - wSolve θ xb u)) := by
    rw [nextState, nextState, ← Matrix.mulVec_sub, hveq]
  rw [h1, Matrix.mulVec_mulVec, mul_E_inv θ hε hρ, Matrix.one_mulVec]

/-- One-step decrease of the contraction metric `H11` with margin `ε`,
for every configured `ρ ≥ 1`. -/
lemma step_contraction (θ : Params n l m p) (hε : 0 < θ.epsilon)
    (hρ : 1 ≤ θ.contraction_rate_lb) (xa xb : Fin n → ℝ) (u : Fin m → ℝ) :
    (nextState θ xa u - nextState θ xb u)
        ⬝ᵥ (H11 θ *ᵥ (nextState θ xa u - nextState θ xb u))
      + θ.epsilon * ((nextState θ xa u - nextState θ xb u)
          ⬝ᵥ (nextState θ xa u - nextState θ xb u))
    ≤ (xa - xb) ⬝ᵥ (H11 θ *ᵥ (xa - xb)) := by
  have hρ0 : 0 < θ.contraction_rate_lb := lt_of_lt_of_le zero_lt_one hρ
  set δ := xa - xb with hδ
  set w := wSolve θ xa u - wSolve θ xb u with hw
  set d := nextState θ xa u - nextState θ xb u with hd
  have hquad := H_quad_blk θ δ w (-d)
  have hlow := H_quad_lower θ (blk δ w (-d))
  rw [blk_dot] at hlow
  simp only [neg_dotProduct, dotProduct_neg, neg_neg] at hlow
  rw [mul_add, mul_add] at hlow
  have h12 : δ ⬝ᵥ (H12 θ *ᵥ w) = w ⬝ᵥ (H21 θ *ᵥ δ) :=
    dot_mulVec_comm _ _ (fun i j => H_symm_entry θ (b1 i) (b2 j)) δ w
  have h13 : δ ⬝ᵥ (H13 θ *ᵥ (-d)) = (-d) ⬝ᵥ (H31 θ *ᵥ δ) :=
    dot_mulVec_comm _ _ (fun i j => H_symm_entry θ (b1 i) (b3 j)) δ (-d)
  have h23 : w ⬝ᵥ (H23 θ *ᵥ (-d)) = (-d) ⬝ᵥ (H32 θ *ᵥ w) :=
    dot_mulVec_comm _ _ (fun i j => H_symm_entry θ (b2 i) (b3 j)) w (-d)
  rw [h12, h13, h23] at hquad
  simp only [Matrix.mulVec_neg, dotProduct_neg, neg_dotProduct, neg_neg]
    at hquad
  have hC1 : w ⬝ᵥ (H21 θ *ᵥ δ) = -(w ⬝ᵥ (C1 θ *ᵥ δ)) := by
    have hc : C1 θ = -(H21 θ) := rfl
    rw [hc, Matrix.neg_mulVec, dotProduct_neg, neg_neg]
  rw [hC1] at hquad
  have hEd : d ⬝ᵥ (H31 θ *ᵥ δ) + d ⬝ᵥ (H32 θ *ᵥ w)
      = d ⬝ᵥ (E θ *ᵥ d) := by
    rw [← dotProduct_add]
    exact congrArg (dotProduct d) (E_mulVec_diff θ hε hρ0 xa xb u).symm
  have hEq := E_quad θ d
  have h22 : w ⬝ᵥ (H22 θ *ᵥ w)
      = -2 * (w ⬝ᵥ (D11 θ *ᵥ w)) + 2 * ∑ i, Lambda θ i * w i ^ 2 := by
    rw [H22_decomp θ, Matrix.add_mulVec, Matrix.add_mulVec, dotProduct_add,
      dotProduct_add, dot_transpose_mulVec, dot_diag_lambda,
      Matrix.neg_mulVec, dotProduct_neg]
    ring
  have hiqc := iqc_sum θ hε xa xb u
  rw [← hw, ← hδ, dotProduct_add] at hiqc
  have hρ4 : d ⬝ᵥ (H33 θ *ᵥ d)
      ≤ θ.contraction_rate_lb * (d ⬝ᵥ (H33 θ *ᵥ d)) :=
    le_mul_of_one_le_left (H33_quad_nonneg θ hε.le d) hρ
  have hp1 : 0 ≤ θ.epsilon * (δ ⬝ᵥ δ) :=
    mul_nonneg hε.le (dot_self_nonneg δ)
  have hp2 : 0 ≤ θ.epsilon * (w ⬝ᵥ w) :=
    mul_nonneg hε.le (dot_self_nonneg w)
  linarith

lemma contractionFactor_nonneg (θ : Params n l m p) (hε : 0 < θ.epsilon) :
    0 ≤ contractionFactor θ :=
  div_nonneg (H11abs_nonneg θ) (by linarith [H11abs_nonneg θ])

lemma contractionFactor_lt_one (θ : Params n l m p) (hε : 0 < θ.epsilon) :
    contractionFactor θ < 1 := by
  rw [contractionFactor, div_lt_one (by linarith [H11abs_nonneg θ])]
  linarith

/-- Per-step decay of the `H11` metric by the factor
`H11abs / (H11abs + ε) < 1`. -/
lemma step_factor (θ : Params n l m p) (hε : 0 < θ.epsilon)
    (hρ : 1 ≤ θ.contraction_rate_lb) (xa xb : Fin n → ℝ) (u : Fin m → ℝ) :
    (nextState θ xa u - nextState θ xb u)
        ⬝ᵥ (H11 θ *ᵥ (nextState θ xa u - nextState θ xb u))
      ≤ contractionFactor θ * ((xa - xb) ⬝ᵥ (H11 θ *ᵥ (xa - xb))) := by
  have h1 := step_contraction θ hε hρ xa xb u
  have h2 := H11_quad_upper θ (nextState θ xa u - nextState θ xb u)
  have hK := H11abs_nonneg θ
  have hpos : 0 < H11abs θ + θ.epsilon := by linarith
  rw [contractionFactor, div_mul_eq_mul_div, le_div_iff₀ hpos]
  nlinarith [mul_le_mul_of_nonneg_left h2 hε.le,
    mul_le_mul_of_nonneg_left h1 hK]

/-- C6 (amended): for every configured `ρ ≥ 1` and `ε > 0`, any two models
sharing one free-parameter set and driven by one identical input sequence
have state trajectories whose squared distance decays geometrically, with
the explicit factor `H11abs/(H11abs+ε) < 1` per step in the metric `H11` —
guaranteed by the algebraic construction alone, with no runtime checking.
(For `ρ < 1` no such guarantee exists; see the counterexample.) -/
theorem trajectory_contraction (θ : Params n l m p) (hε : 0 < θ.epsilon)
    (hρ : 1 ≤ θ.contraction_rate_lb) (Na Nb : Model n l m p)
    (hA : Na.params = θ) (hB : Nb.params = θ) (u : ℕ → Fin m → ℝ) :
    0 ≤ contractionFactor θ ∧ contractionFactor θ < 1
    ∧ ∀ t, θ.epsilon * (((runSteps Na u t).1.x - (runSteps Nb u t).1.x)
          ⬝ᵥ ((runSteps Na u t).1.x - (runSteps Nb u t).1.x))
        ≤ contractionFactor θ ^ t
            * ((Na.x - Nb.x) ⬝ᵥ (H11 θ *ᵥ (Na.x - Nb.x))) := by
  have hf0 := contractionFactor_nonneg θ hε
  have hf1 := contractionFactor_lt_one θ hε
  refine ⟨hf0, hf1, ?_⟩
  have hV : ∀ t, ((runSteps Na u t).1.x - (runSteps Nb u t).1.x)
        ⬝ᵥ (H11 θ *ᵥ ((runSteps Na u t).1.x - (runSteps Nb u t).1.x))
      ≤ contractionFactor θ ^ t
          * ((Na.x - Nb.x) ⬝ᵥ (H11 θ *ᵥ (Na.x - Nb.x))) := by
    intro t
    induction t with
    | zero => simp [runSteps]
    | succ t ih =>
      have hpa : (runSteps Na u t).1.params = θ := by
        rw [(runSteps_frame Na u t).1, hA]
      have hpb : (runSteps Nb u t).1.params = θ := by
        rw [(runSteps_frame Nb u t).1, hB]
      have hsa : (runSteps Na u (t + 1)).1.x
          = nextState θ ((runSteps Na u t).1.x) (u t) := by
        rw [← hpa]
        rfl
      have hsb : (runSteps Nb u (t + 1)).1.x
          = nextState θ ((runSteps Nb u t).1.x) (u t) := by
        rw [← hpb]
        rfl
      rw [hsa, hsb]
      calc (nextState θ ((runSteps Na u t).1.x) (u t)
            - nextState θ ((runSteps Nb u t).1.x) (u t))
          ⬝ᵥ (H11 θ *ᵥ (nextState θ ((runSteps Na u t).1.x) (u t)
            - nextState θ ((runSteps Nb u t).1.x) (u t)))
          ≤ contractionFactor θ
              * (((runSteps Na u t).1.x - (runSteps Nb u t).1.x)
                ⬝ᵥ (H11 θ *ᵥ ((runSteps Na u t).1.x
                  - (runSteps Nb u t).1.x))) :=
          step_factor θ hε hρ _ _ (u t)
        _ ≤ contractionFactor θ * (contractionFactor θ ^ t
              * ((Na.x - Nb.x) ⬝ᵥ (H11 θ *ᵥ (Na.x - Nb.x)))) :=
          mul_le_mul_of_nonneg_left ih hf0
        _ = contractionFactor θ ^ (t + 1)
              * ((Na.x - Nb.x) ⬝ᵥ (H11 θ *ᵥ (Na.x - Nb.x))) := by ring
  intro t
  exact le_trans (H11_quad_lower θ _) (hV t)

/-- Witness for `trajectory_contraction` at a concrete parameter set and
pair of models. -/
theorem trajectory_contraction_witness :
    0 < zeroParams.epsilon ∧ 1 ≤ zeroParams.contraction_rate_lb
    ∧ (0 ≤ contractionFactor zeroParams
      ∧ contractionFactor zeroParams < 1
      ∧ ∀ t, zeroParams.epsilon
          * (((runSteps M1 (fun _ => 0) t).1.x
              - (runSteps M0 (fun _ => 0) t).1.x)
            ⬝ᵥ ((runSteps M1 (fun _ => 0) t).1.x
              - (runSteps M0 (fun _ => 0) t).1.x))
        ≤ contractionFactor zeroParams ^ t
            * ((M1.x - M0.x) ⬝ᵥ (H11 zeroParams *ᵥ (M1.x - M0.x)))) :=
  ⟨zero_lt_one, le_refl 1,
    trajectory_contraction zeroParams zero_lt_one (le_refl 1) M1 M0 rfl rfl
      (fun _ => 0)⟩

end ContractiveREN

end
